import Mathlib

/-!
Verification of the Thompson-NFA regex compiler (`thompson_nfa.py`).

The development shallowly embeds the compiler pipeline: whitespace removal,
explicit-concatenation insertion, shunting-yard conversion to reverse-Polish
order, the Thompson fragment-stack builder, the reachability collection of
states, and the epsilon-closure simulator.  States are the integer
identifiers the reference allocates from its counter; the mutable per-state
edge dictionaries are embedded as one growing list of labelled edges.
-/

set_option maxRecDepth 4000

namespace ThompsonNFA

/-- Errors raised by the compiler.  `unbalanced` embeds the two
`ValueError("Paréntesis desbalanceados")` sites, `unsupported` the
`ValueError("Símbolo no soportado")` site, `invalidConstruction` the
`RuntimeError("ER inválida")` site, and `popEmpty` the `IndexError` a
`stack.pop()` on an empty operand stack would raise. -/
inductive Err where
  | unbalanced : Err
  | unsupported : Char → Err
  | invalidConstruction : Err
  | popEmpty : Err
deriving DecidableEq, Repr

deriving instance DecidableEq for Except

/-- Embeds `EPS = "ε"`. -/
def EPS : Char := 'ε'

/-- The reserved operator characters of `is_symbol`. -/
def OPERATORS : List Char := ['|', '*', '+', '?', '(', ')', '.']

/-- Embeds `remove_spaces`: drop every whitespace character. -/
def remove_spaces (s : List Char) : List Char :=
  s.filter (fun c => !c.isWhitespace)

/-- Embeds `is_symbol`: any character outside the operator set is a literal. -/
def is_symbol (c : Char) : Bool :=
  !(OPERATORS.contains c)

/-- The pair condition of `add_concat`: insert `.` between `a` and `b`. -/
def concatCond (a b : Char) : Bool :=
  (is_symbol a || [')', '*', '+', '?'].contains a) &&
    (is_symbol b || ['(', EPS].contains b)

/-- Embeds `add_concat`: insert the explicit concatenation operator `.`
between adjacent pairs satisfying `concatCond`. -/
def add_concat : List Char → List Char
  | a :: b :: rest =>
      if concatCond a b then a :: '.' :: add_concat (b :: rest)
      else a :: add_concat (b :: rest)
  | l => l

/-- Embeds the `PRECEDENCE` table (`|`↦1, `.`↦2, `*`,`+`,`?`↦3). -/
def PRECEDENCE (c : Char) : Option Nat :=
  if c = '|' then some 1
  else if c = '.' then some 2
  else if c = '*' then some 3
  else if c = '+' then some 3
  else if c = '?' then some 3
  else none

/-- Embeds the `RIGHT_ASSOC` set. -/
def RIGHT_ASSOC : List Char := ['*', '+', '?']

/-- The pop condition of the operator branch of `to_postfix`:
`top in PRECEDENCE and (PRECEDENCE[top] > PRECEDENCE[ch] or
(PRECEDENCE[top] == PRECEDENCE[ch] and ch not in RIGHT_ASSOC))`. -/
def popCond (top ch : Char) : Bool :=
  match PRECEDENCE top, PRECEDENCE ch with
  | some pt, some pc =>
      decide (pt > pc) || (decide (pt = pc) && !(RIGHT_ASSOC.contains ch))
  | _, _ => false

/-- Embeds the inner `while` loop of the operator branch: pop operators to
the output while the stack top is not `(` and `popCond` holds.  Returns the
remaining stack and the extended output. -/
def popOps (ch : Char) : List Char → List Char → List Char × List Char
  | [], out => ([], out)
  | top :: rest, out =>
      if top = '(' then (top :: rest, out)
      else if popCond top ch then popOps ch rest (out ++ [top])
      else (top :: rest, out)

/-- Embeds the `)` branch: pop and emit until a `(` is found and discarded;
`none` when the stack is exhausted without a `(` (the unbalanced error). -/
def popToParen : List Char → List Char → Option (List Char × List Char)
  | [], _ => none
  | top :: rest, out =>
      if top = '(' then some (rest, out)
      else popToParen rest (out ++ [top])

/-- Embeds the final `while stack` drain of `to_postfix`: any leftover
parenthesis is an unbalanced error, other operators are emitted. -/
def flushStack : List Char → List Char → Except Err (List Char)
  | [], out => .ok out
  | op :: rest, out =>
      if op = '(' ∨ op = ')' then .error .unbalanced
      else flushStack rest (out ++ [op])

/-- The main loop of `to_postfix` over the input characters, carrying the
output list and the operator stack. -/
def toPostAux : List Char → List Char → List Char → Except Err (List Char)
  | [], out, stack => flushStack stack out
  | ch :: cs, out, stack =>
      if ch = EPS then toPostAux cs (out ++ [EPS]) stack
      else if is_symbol ch then toPostAux cs (out ++ [ch]) stack
      else if ch = '(' then toPostAux cs out ('(' :: stack)
      else if ch = ')' then
        match popToParen stack out with
        | none => .error .unbalanced
        | some (stack', out') => toPostAux cs out' stack'
      else if (PRECEDENCE ch).isSome then
        let p := popOps ch stack out
        toPostAux cs p.2 (ch :: p.1)
      else .error (.unsupported ch)

/-- Embeds `to_postfix`. -/
def to_postfix (regex : List Char) : Except Err (List Char) :=
  toPostAux regex [] []

/-- A labelled transition `(source, label, target)` between state ids. -/
abbrev Edge := Nat × Char × Nat

/-- Embeds `Fragment`: an entry/exit pair of state ids. -/
structure Fragment where
  start : Nat
  accept : Nat
deriving DecidableEq, Repr

/-- The construction context: the `_id` counter together with the edges
stored in the `State` objects created so far. -/
structure Builder where
  nextId : Nat
  edges : List Edge
deriving DecidableEq, Repr

/-- Embeds the final `NFA` value: start id, accept id, the collected
reachable state set, and the edges of its states. -/
structure NFA where
  start : Nat
  accept : Nat
  states : List Nat
  edges : List Edge
deriving DecidableEq, Repr

/-- The targets of the edges of state `u` labelled `c`
(Python `u.edges.get(c, set())`). -/
def succs (es : List Edge) (u : Nat) (c : Char) : List Nat :=
  (es.filter (fun e => e.1 == u && e.2.1 == c)).map (fun e => e.2.2)

/-- The targets of all edges of state `u`, over every label
(Python `u.edges.values()` flattened). -/
def allSuccs (es : List Edge) (u : Nat) : List Nat :=
  (es.filter (fun e => e.1 == u)).map (fun e => e.2.2)

/-- All state ids mentioned by the edge list together with `start`; a
finite universe containing everything the traversals can touch. -/
def uniList (es : List Edge) (start : Nat) : List Nat :=
  start :: (es.map (fun e => e.1) ++ es.map (fun e => e.2.2))

/-- Worklist form of the recursive `dfs` of `thompson_from_postfix`: visit
the head of the worklist, enqueue its successors when it is new.  The fuel
argument dominates the number of iterations the reference performs. -/
def dfsAux (es : List Edge) : Nat → List Nat → List Nat → List Nat
  | 0, _, vis => vis
  | _ + 1, [], vis => vis
  | fuel + 1, u :: ws, vis =>
      if u ∈ vis then dfsAux es fuel ws vis
      else dfsAux es fuel (allSuccs es u ++ ws) (u :: vis)

/-- Fuel sufficient for `dfsAux` to saturate: every newly visited state is
in `uniList` and enqueues at most `es.length` successors. -/
def dfsFuel (es : List Edge) (start : Nat) : Nat :=
  (es.length + 1) * (uniList es start).length + 1

/-- Embeds `dfs`: the set of states reachable from `start` following
transitions of any label. -/
def dfs (es : List Edge) (start : Nat) : List Nat :=
  dfsAux es (dfsFuel es start) [start] []

/-- One token step of `thompson_from_postfix`: the dispatch on `tok` over
the fragment stack, threading the state counter and the created edges. -/
def thompsonStep (stack : List Fragment) (b : Builder) (tok : Char) :
    Except Err (List Fragment × Builder) :=
  if tok = '|' then
    match stack with
    | bf :: af :: rest =>
        .ok (⟨b.nextId + 1, b.nextId + 2⟩ :: rest,
          ⟨b.nextId + 2,
            b.edges ++ [(b.nextId + 1, EPS, af.start), (b.nextId + 1, EPS, bf.start),
              (af.accept, EPS, b.nextId + 2), (bf.accept, EPS, b.nextId + 2)]⟩)
    | _ => .error .popEmpty
  else if tok = '.' then
    match stack with
    | bf :: af :: rest =>
        .ok (⟨af.start, bf.accept⟩ :: rest,
          ⟨b.nextId, b.edges ++ [(af.accept, EPS, bf.start)]⟩)
    | _ => .error .popEmpty
  else if tok = '*' then
    match stack with
    | af :: rest =>
        .ok (⟨b.nextId + 1, b.nextId + 2⟩ :: rest,
          ⟨b.nextId + 2,
            b.edges ++ [(b.nextId + 1, EPS, af.start), (b.nextId + 1, EPS, b.nextId + 2),
              (af.accept, EPS, af.start), (af.accept, EPS, b.nextId + 2)]⟩)
    | _ => .error .popEmpty
  else if tok = '+' then
    match stack with
    | af :: rest =>
        .ok (⟨b.nextId + 1, b.nextId + 2⟩ :: rest,
          ⟨b.nextId + 2,
            b.edges ++ [(b.nextId + 1, EPS, af.start),
              (af.accept, EPS, af.start), (af.accept, EPS, b.nextId + 2)]⟩)
    | _ => .error .popEmpty
  else if tok = '?' then
    match stack with
    | af :: rest =>
        .ok (⟨b.nextId + 1, b.nextId + 2⟩ :: rest,
          ⟨b.nextId + 2,
            b.edges ++ [(b.nextId + 1, EPS, af.start), (b.nextId + 1, EPS, b.nextId + 2),
              (af.accept, EPS, b.nextId + 2)]⟩)
    | _ => .error .popEmpty
  else
    .ok (⟨b.nextId + 1, b.nextId + 2⟩ :: stack,
      ⟨b.nextId + 2,
        b.edges ++ [(b.nextId + 1, (if tok = EPS then EPS else tok), b.nextId + 2)]⟩)

/-- The token loop of `thompson_from_postfix` over the reverse-Polish
sequence. -/
def runPost : List Char → List Fragment → Builder → Except Err (List Fragment × Builder)
  | [], stack, b => .ok (stack, b)
  | t :: ts, stack, b =>
      match thompsonStep stack b t with
      | .error e => .error e
      | .ok (stack', b') => runPost ts stack' b'

/-- The counter state at the start of a build (`_id = 0`, no edges). -/
def initBuilder : Builder := ⟨0, []⟩

/-- Embeds `thompson_from_postfix`: evaluate the reverse-Polish tokens,
require a singleton fragment stack, and collect the reachable states. -/
def thompson_from_postfix (post : List Char) : Except Err NFA :=
  match runPost post [] initBuilder with
  | .error e => .error e
  | .ok (stack, b) =>
      match stack with
      | [frag] => .ok ⟨frag.start, frag.accept, dfs b.edges frag.start, b.edges⟩
      | _ => .error .invalidConstruction

/-- Embeds `compile_regex_to_nfa`: the full pipeline on a fresh counter. -/
def compile_regex_to_nfa (r : List Char) : Except Err NFA :=
  match to_postfix (add_concat (remove_spaces r)) with
  | .error e => .error e
  | .ok post => thompson_from_postfix post

/-- The inner `for v in s.edges.get(EPS, ...)` loop of `epsilon_closure`:
push and record every epsilon successor not yet in the closure. -/
def ecFold : List Nat → List Nat → List Nat → List Nat × List Nat
  | [], stack, closure => (stack, closure)
  | v :: vs, stack, closure =>
      if v ∈ closure then ecFold vs stack closure
      else ecFold vs (v :: stack) (v :: closure)

/-- The `while stack` saturation loop of `epsilon_closure`. -/
def ecAux (es : List Edge) : Nat → List Nat → List Nat → List Nat
  | 0, _, closure => closure
  | _ + 1, [], closure => closure
  | fuel + 1, s :: stack, closure =>
      let p := ecFold (succs es s EPS) stack closure
      ecAux es fuel p.1 p.2

/-- Embeds `epsilon_closure`: each state enters the stack at most once, so
`states.length + es.length + 1` iterations always saturate. -/
def epsilon_closure (es : List Edge) (states : List Nat) : List Nat :=
  ecAux es (states.length + es.length + 1) states states

/-- Embeds `move`: the union over the current states of the `sym`-labelled
successor sets. -/
def move (es : List Edge) (states : List Nat) (sym : Char) : List Nat :=
  states.foldr (fun s acc => succs es s sym ++ acc) []

/-- The `for ch in w` loop of `nfa_accepts`, including the early
`if not current: break`. -/
def acceptLoop (es : List Edge) : List Char → List Nat → List Nat
  | [], cur => cur
  | c :: cs, cur =>
      let cur' := epsilon_closure es (move es cur c)
      if cur' = [] then cur' else acceptLoop es cs cur'

/-- Embeds `nfa_accepts`. -/
def nfa_accepts (nfa : NFA) (w : List Char) : Bool :=
  decide (nfa.accept ∈ acceptLoop nfa.edges w (epsilon_closure nfa.edges [nfa.start]))

/-- Modelled from the spec: the reference simulator that "processes every
symbol of the word without breaking" when the current set becomes empty
(the early exit of `nfa_accepts` is stated to be a pure optimization). -/
def acceptLoopRef (es : List Edge) : List Char → List Nat → List Nat
  | [], cur => cur
  | c :: cs, cur => acceptLoopRef es cs (epsilon_closure es (move es cur c))

/-- Modelled from the spec: acceptance by the break-free reference
simulator. -/
def nfa_accepts_ref (nfa : NFA) (w : List Char) : Bool :=
  decide (nfa.accept ∈ acceptLoopRef nfa.edges w (epsilon_closure nfa.edges [nfa.start]))

/-- One step of the transition relation: some edge of any label leads from
`u` to `v`. -/
def stepRel (es : List Edge) (u v : Nat) : Prop :=
  ∃ c, v ∈ succs es u c

/-- Reachability from `u` to `v` following transitions of any label. -/
def Reach (es : List Edge) (u v : Nat) : Prop :=
  Relation.ReflTransGen (stepRel es) u v

/-- Balanced-parenthesis check relative to `d` currently open groups: every
`)` matches an earlier `(` and every group is closed at the end. -/
def bal : List Char → Nat → Bool
  | [], d => d == 0
  | c :: cs, d =>
      if c = '(' then bal cs (d + 1)
      else if c = ')' then
        match d with
        | 0 => false
        | e + 1 => bal cs e
      else bal cs d

/-- Whether a pipeline result is the unsupported-symbol failure. -/
def isUnsupportedRes {α : Type} : Except Err α → Bool
  | .error (.unsupported _) => true
  | _ => false

-- Basic lemmas about the converter

theorem concatCond_iff (a b : Char) :
    concatCond a b = true ↔
      ((is_symbol a = true ∨ a = ')' ∨ a = '*' ∨ a = '+' ∨ a = '?') ∧
        (is_symbol b = true ∨ b = '(' ∨ b = EPS)) := by
  simp [concatCond, List.elem_iff, or_assoc]

theorem add_concat_head? (l : List Char) : (add_concat l).head? = l.head? := by
  match l with
  | [] => rfl
  | [c] => rfl
  | a :: b :: rest =>
      simp only [add_concat]
      split <;> rfl

theorem add_concat_getLast? (l : List Char) : (add_concat l).getLast? = l.getLast? := by
  induction l with
  | nil => rfl
  | cons a t ih =>
      cases t with
      | nil => rfl
      | cons b rest =>
          obtain ⟨x, xs, hX⟩ : ∃ x xs, add_concat (b :: rest) = x :: xs := by
            cases h : add_concat (b :: rest) with
            | nil =>
                have hh := add_concat_head? (b :: rest)
                rw [h] at hh
                simp at hh
            | cons x xs => exact ⟨x, xs, rfl⟩
          rw [hX] at ih
          simp only [add_concat]
          rw [hX]
          split
          · rw [List.getLast?_cons_cons, List.getLast?_cons_cons, ih,
              List.getLast?_cons_cons]
          · rw [List.getLast?_cons_cons, ih, List.getLast?_cons_cons]

/-- C6: the concatenation expander inserts `.` between an adjacent pair
`(a, b)` exactly when `a` is a literal symbol, `)`, `*`, `+` or `?` and `b`
is a literal symbol, `(` or the empty-string marker; nothing is inserted at
the sequence boundaries (head and last characters are preserved, and
singleton or empty sequences are returned unchanged). -/
theorem c6_concat_insertion :
    (∀ a b rest, add_concat (a :: b :: rest) =
      if (is_symbol a = true ∨ a = ')' ∨ a = '*' ∨ a = '+' ∨ a = '?') ∧
         (is_symbol b = true ∨ b = '(' ∨ b = EPS)
      then a :: '.' :: add_concat (b :: rest)
      else a :: add_concat (b :: rest)) ∧
    add_concat ([] : List Char) = [] ∧ (∀ c, add_concat [c] = [c]) ∧
    (∀ l : List Char, (add_concat l).head? = l.head?) ∧
    (∀ l : List Char, (add_concat l).getLast? = l.getLast?) := by
  refine ⟨?_, rfl, fun c => rfl, add_concat_head?, add_concat_getLast?⟩
  intro a b rest
  simp only [add_concat]
  by_cases h : concatCond a b = true
  · rw [if_pos h, if_pos ((concatCond_iff a b).mp h)]
  · rw [if_neg h, if_neg (fun hp => h ((concatCond_iff a b).mpr hp))]

/-- C1: each unary operator pops exactly one operand fragment `a` and pushes
a fragment of two fresh states `s = nextId + 1` (entry) and `t = nextId + 2`
(exit); star adds the epsilon edges `s→a.start`, `s→t`, `a.accept→a.start`
and `a.accept→t`; plus omits the skip edge `s→t`; optional omits the repeat
edge `a.accept→a.start`. -/
theorem c1_unary_construction (a : Fragment) (rest : List Fragment) (b : Builder) :
    thompsonStep (a :: rest) b '*' =
      .ok (⟨b.nextId + 1, b.nextId + 2⟩ :: rest,
        ⟨b.nextId + 2,
          b.edges ++ [(b.nextId + 1, EPS, a.start), (b.nextId + 1, EPS, b.nextId + 2),
            (a.accept, EPS, a.start), (a.accept, EPS, b.nextId + 2)]⟩) ∧
    thompsonStep (a :: rest) b '+' =
      .ok (⟨b.nextId + 1, b.nextId + 2⟩ :: rest,
        ⟨b.nextId + 2,
          b.edges ++ [(b.nextId + 1, EPS, a.start),
            (a.accept, EPS, a.start), (a.accept, EPS, b.nextId + 2)]⟩) ∧
    thompsonStep (a :: rest) b '?' =
      .ok (⟨b.nextId + 1, b.nextId + 2⟩ :: rest,
        ⟨b.nextId + 2,
          b.edges ++ [(b.nextId + 1, EPS, a.start), (b.nextId + 1, EPS, b.nextId + 2),
            (a.accept, EPS, b.nextId + 2)]⟩) :=
  ⟨rfl, rfl, rfl⟩

/-- C3: the simulator accepts the empty word exactly when the accept state
lies in the epsilon-closure of the singleton set of the start state. -/
theorem c3_empty_word (r : List Char) (nfa : NFA)
    (_h : compile_regex_to_nfa r = .ok nfa) :
    nfa_accepts nfa [] = true ↔ nfa.accept ∈ epsilon_closure nfa.edges [nfa.start] := by
  simp [nfa_accepts, acceptLoop]

/-- Witness for C3 at the automaton compiled from the regex `a`. -/
theorem c3_empty_word_witness :
    nfa_accepts ⟨1, 2, [2, 1], [(1, 'a', 2)]⟩ [] = true ↔
      (2 : Nat) ∈ epsilon_closure [(1, 'a', 2)] [1] :=
  c3_empty_word ['a'] ⟨1, 2, [2, 1], [(1, 'a', 2)]⟩ (by decide)

/-- C5: the precedence table maps alternation to 1, concatenation to 2 and
the unary operators to 3, and the operator branch pops the stack top
exactly while it has strictly greater precedence, or equal precedence when
the incoming operator is left-associative (`|` or `.`); popping stops at an
opening parenthesis. -/
theorem c5_precedence_pop :
    PRECEDENCE '|' = some 1 ∧ PRECEDENCE '.' = some 2 ∧ PRECEDENCE '*' = some 3 ∧
    PRECEDENCE '+' = some 3 ∧ PRECEDENCE '?' = some 3 ∧
    (∀ ch ∈ ['|', '.', '*', '+', '?'], ∀ top ∈ ['|', '.', '*', '+', '?'],
      ∀ rest out, popOps ch (top :: rest) out =
        if (PRECEDENCE top).getD 0 > (PRECEDENCE ch).getD 0 ∨
            ((PRECEDENCE top).getD 0 = (PRECEDENCE ch).getD 0 ∧ (ch = '|' ∨ ch = '.'))
        then popOps ch rest (out ++ [top])
        else (top :: rest, out)) ∧
    (∀ ch rest out, popOps ch ('(' :: rest) out = ('(' :: rest, out)) := by
  refine ⟨rfl, rfl, rfl, rfl, rfl, ?_, fun ch rest out => rfl⟩
  intro ch hch top htop rest out
  fin_cases hch <;> fin_cases htop <;>
    simp [popOps, popCond, PRECEDENCE, RIGHT_ASSOC]

/-- Witness for C5: reading `*` with `.` on the stack does not pop. -/
theorem c5_precedence_pop_witness :
    popOps '*' ['.'] [] =
      if (PRECEDENCE '.').getD 0 > (PRECEDENCE '*').getD 0 ∨
          ((PRECEDENCE '.').getD 0 = (PRECEDENCE '*').getD 0 ∧ ('*' = '|' ∨ '*' = '.'))
      then popOps '*' [] ([] ++ ['.'])
      else ('.' :: [], []) :=
  c5_precedence_pop.2.2.2.2.2.1 '*' (by decide) '.' (by decide) [] []

theorem popToParen_eq_none_iff (stack : List Char) :
    ∀ out, popToParen stack out = none ↔ '(' ∉ stack := by
  induction stack with
  | nil => simp [popToParen]
  | cons top rest ih =>
      intro out
      by_cases h : top = '('
      · subst h
        simp [popToParen]
      · have h' : ¬ ('(' = top) := fun hc => h hc.symm
        simp [popToParen, h, ih, h']

theorem flushStack_eq_unbalanced_iff (stack : List Char) :
    ∀ out, flushStack stack out = .error .unbalanced ↔ ('(' ∈ stack ∨ ')' ∈ stack) := by
  induction stack with
  | nil => simp [flushStack]
  | cons op rest ih =>
      intro out
      by_cases h : op = '(' ∨ op = ')'
      · rcases h with h | h <;> subst h <;> simp [flushStack]
      · push_neg at h
        simp [flushStack, h.1, h.2, ih, if_neg]
        tauto

/-- C7: the unbalanced-parentheses failure arises exactly at the two sites
the converter checks: a `)` whose pop finds no `(` on the operator stack,
and a leftover parenthesis on the stack after the input is consumed; in
particular compiling `)a(` fails with the unbalanced error. -/
theorem c7_unbalanced :
    (∀ stack out, popToParen stack out = none ↔ '(' ∉ stack) ∧
    (∀ stack out, flushStack stack out = .error .unbalanced ↔
      ('(' ∈ stack ∨ ')' ∈ stack)) ∧
    compile_regex_to_nfa [')', 'a', '('] = .error .unbalanced :=
  ⟨popToParen_eq_none_iff, flushStack_eq_unbalanced_iff, by decide⟩

/-- C8: when the reverse-Polish evaluation finishes with a fragment stack
of length different from one (the empty regex leaves it empty), the builder
fails with the invalid-construction error and no automaton is returned. -/
theorem c8_nonsingleton_stack (post : List Char) (stack : List Fragment) (b : Builder)
    (h : runPost post [] initBuilder = .ok (stack, b)) (hlen : stack.length ≠ 1) :
    thompson_from_postfix post = .error .invalidConstruction := by
  unfold thompson_from_postfix
  rw [h]
  cases stack with
  | nil => rfl
  | cons f t =>
      cases t with
      | nil => simp at hlen
      | cons g r => rfl

/-- Witness for C8: the empty token sequence leaves an empty stack and the
builder rejects it. -/
theorem c8_nonsingleton_stack_witness :
    thompson_from_postfix [] = .error .invalidConstruction :=
  c8_nonsingleton_stack [] [] initBuilder rfl (by decide)

-- The early-exit simulator agrees with the break-free one (C9)

theorem move_nil (es : List Edge) (c : Char) : move es [] c = [] := rfl

theorem epsilon_closure_nil (es : List Edge) : epsilon_closure es [] = [] := by
  simp only [epsilon_closure, List.length_nil, Nat.zero_add]
  simp [ecAux]

theorem acceptLoopRef_nil_cur (es : List Edge) :
    ∀ cs, acceptLoopRef es cs [] = [] := by
  intro cs
  induction cs with
  | nil => rfl
  | cons c cs ih => simp [acceptLoopRef, move_nil, epsilon_closure_nil, ih]

theorem acceptLoop_eq_ref (es : List Edge) :
    ∀ (w : List Char) (cur : List Nat), acceptLoop es w cur = acceptLoopRef es w cur := by
  intro w
  induction w with
  | nil => intro cur; rfl
  | cons c cs ih =>
      intro cur
      by_cases h : epsilon_closure es (move es cur c) = []
      · simp [acceptLoop, acceptLoopRef, h, acceptLoopRef_nil_cur]
      · simp [acceptLoop, acceptLoopRef, h, ih]

/-- C9: the early exit when the current state set becomes empty never
changes the simulator's verdict; `nfa_accepts` is extensionally equal to
the break-free reference simulator. -/
theorem c9_break_is_optimization (nfa : NFA) (w : List Char) :
    nfa_accepts nfa w = nfa_accepts_ref nfa w := by
  unfold nfa_accepts nfa_accepts_ref
  rw [acceptLoop_eq_ref]

-- The unsupported-symbol branch is unreachable (C10)

theorem operator_classified (c : Char) (h : is_symbol c = false) :
    c = '(' ∨ c = ')' ∨ (PRECEDENCE c).isSome = true := by
  have hc : c ∈ OPERATORS := by
    simpa [is_symbol, List.elem_iff] using h
  fin_cases hc <;> simp [PRECEDENCE]

theorem isUnsup_flushStack (stack : List Char) :
    ∀ out, isUnsupportedRes (flushStack stack out) = false := by
  induction stack with
  | nil => intro out; rfl
  | cons op rest ih =>
      intro out
      by_cases h : op = '(' ∨ op = ')'
      · simp [flushStack, h, isUnsupportedRes]
      · simp [flushStack, h, ih]

theorem isUnsup_toPostAux (cs : List Char) :
    ∀ out stack, isUnsupportedRes (toPostAux cs out stack) = false := by
  induction cs with
  | nil => intro out stack; exact isUnsup_flushStack stack out
  | cons ch cs ih =>
      intro out stack
      simp only [toPostAux]
      by_cases h1 : ch = EPS
      · rw [if_pos h1]; exact ih _ _
      rw [if_neg h1]
      by_cases h2 : is_symbol ch = true
      · rw [if_pos h2]; exact ih _ _
      rw [if_neg h2]
      by_cases h3 : ch = '('
      · rw [if_pos h3]; exact ih _ _
      rw [if_neg h3]
      by_cases h4 : ch = ')'
      · rw [if_pos h4]
        cases hp : popToParen stack out with
        | none => rfl
        | some p =>
            rcases p with ⟨stack', out'⟩
            exact ih _ _
      rw [if_neg h4]
      have h5 : (PRECEDENCE ch).isSome = true := by
        rcases operator_classified ch (by simpa using h2) with h | h | h
        · exact absurd h h3
        · exact absurd h h4
        · exact h
      rw [if_pos h5]
      exact ih _ _

theorem thompsonStep_error_popEmpty (stack : List Fragment) (b : Builder) (t : Char)
    (e : Err) (h : thompsonStep stack b t = .error e) : e = .popEmpty := by
  unfold thompsonStep at h
  repeat' split at h
  all_goals simp_all

theorem runPost_error_popEmpty (ts : List Char) :
    ∀ stack b e, runPost ts stack b = .error e → e = .popEmpty := by
  induction ts with
  | nil =>
      intro stack b e h
      simp [runPost] at h
  | cons t ts ih =>
      intro stack b e h
      simp only [runPost] at h
      cases ht : thompsonStep stack b t with
      | error e' =>
          rw [ht] at h
          have he := thompsonStep_error_popEmpty stack b t e' ht
          cases h
          exact he
      | ok p =>
          rw [ht] at h
          exact ih _ _ _ h

theorem isUnsup_thompson (post : List Char) :
    isUnsupportedRes ( thompson_from_postfix post) = false := by
  unfold thompson_from_postfix
  cases h : runPost post [] initBuilder with
  | error e =>
      have he := runPost_error_popEmpty post [] initBuilder e h
      subst he
      rfl
  | ok p =>
      rcases p with ⟨stack, b⟩
      cases stack with
      | nil => rfl
      | cons f t =>
          cases t with
          | nil => rfl
          | cons g r => rfl

/-- C10: the compiler never fails with the unsupported-symbol error: every
character outside the seven operator characters (the empty-string marker
included) is classified as a literal, so that branch of the converter is
unreachable on any input. -/
theorem c10_no_unsupported (r : List Char) :
    isUnsupportedRes (compile_regex_to_nfa r) = false := by
  unfold compile_regex_to_nfa
  cases h : to_postfix (add_concat (remove_spaces r)) with
  | error e =>
      have hh := isUnsup_toPostAux (add_concat (remove_spaces r)) [] []
      rw [ to_postfix] at h
      rw [h] at hh
      cases e with
      | unsupported c => simp [isUnsupportedRes] at hh
      | unbalanced => rfl
      | invalidConstruction => rfl
      | popEmpty => rfl
  | ok post => exact isUnsup_thompson post

-- Correctness of the reachability traversal (C2)

theorem mem_succs_iff (es : List Edge) (u : Nat) (c : Char) (v : Nat) :
    v ∈ succs es u c ↔ (u, c, v) ∈ es := by
  simp only [succs, List.mem_map, List.mem_filter, Bool.and_eq_true, beq_iff_eq]
  constructor
  · rintro ⟨⟨e1, e2, e3⟩, ⟨hmem, h1, h2⟩, h3⟩
    simp only at h1 h2 h3
    subst h1; subst h2; subst h3
    exact hmem
  · intro h
    exact ⟨(u, c, v), ⟨h, rfl, rfl⟩, rfl⟩

theorem mem_allSuccs_iff (es : List Edge) (u v : Nat) :
    v ∈ allSuccs es u ↔ ∃ c, (u, c, v) ∈ es := by
  simp only [allSuccs, List.mem_map, List.mem_filter, beq_iff_eq]
  constructor
  · rintro ⟨⟨e1, e2, e3⟩, ⟨hmem, h1⟩, h3⟩
    simp only at h1 h3
    subst h1; subst h3
    exact ⟨e2, hmem⟩
  · rintro ⟨c, h⟩
    exact ⟨(u, c, v), ⟨h, rfl⟩, rfl⟩

theorem stepRel_iff_allSuccs (es : List Edge) (u v : Nat) :
    stepRel es u v ↔ v ∈ allSuccs es u := by
  simp only [stepRel, mem_allSuccs_iff]
  constructor
  · rintro ⟨c, hc⟩
    exact ⟨c, (mem_succs_iff es u c v).mp hc⟩
  · rintro ⟨c, hc⟩
    exact ⟨c, (mem_succs_iff es u c v).mpr hc⟩

theorem allSuccs_subset_uniList (es : List Edge) (start u : Nat) :
    allSuccs es u ⊆ uniList es start := by
  intro v hv
  rcases (mem_allSuccs_iff es u v).mp hv with ⟨c, hc⟩
  simp only [uniList, List.mem_cons, List.mem_append, List.mem_map]
  exact Or.inr (Or.inr ⟨(u, c, v), hc, rfl⟩)

theorem length_allSuccs_le (es : List Edge) (u : Nat) :
    (allSuccs es u).length ≤ es.length := by
  simpa [allSuccs] using List.length_filter_le (fun e : Edge => e.1 == u) es

theorem dfsAux_mono (es : List Edge) :
    ∀ (fuel : Nat) (ws vis : List Nat), vis ⊆ dfsAux es fuel ws vis := by
  intro fuel
  induction fuel with
  | zero => intro ws vis; simp [dfsAux]
  | succ n ih =>
      intro ws vis
      cases ws with
      | nil => simp [dfsAux]
      | cons u ws =>
          by_cases h : u ∈ vis
          · simpa [dfsAux, h] using ih ws vis
          · simp only [dfsAux, if_neg h]
            intro x hx
            exact ih _ _ (List.mem_cons_of_mem u hx)

theorem dfsAux_sound (es : List Edge) (start : Nat) :
    ∀ (fuel : Nat) (ws vis : List Nat),
      (∀ w ∈ ws, Reach es start w) → (∀ x ∈ vis, Reach es start x) →
      ∀ x ∈ dfsAux es fuel ws vis, Reach es start x := by
  intro fuel
  induction fuel with
  | zero => intro ws vis _ hvis x hx; exact hvis x (by simpa [dfsAux] using hx)
  | succ n ih =>
      intro ws vis hws hvis x hx
      cases ws with
      | nil => exact hvis x (by simpa [dfsAux] using hx)
      | cons u ws =>
          by_cases h : u ∈ vis
          · rw [dfsAux, if_pos h] at hx
            exact ih ws vis (fun w hw => hws w (List.mem_cons_of_mem u hw)) hvis x hx
          · rw [dfsAux, if_neg h] at hx
            refine ih _ _ ?_ ?_ x hx
            · intro w hw
              rcases List.mem_append.mp hw with hw | hw
              · exact Relation.ReflTransGen.tail (hws u (List.mem_cons_self u ws))
                  ((stepRel_iff_allSuccs es u w).mpr hw)
              · exact hws w (List.mem_cons_of_mem u hw)
            · intro y hy
              rcases List.mem_cons.mp hy with hy | hy
              · subst hy; exact hws y (List.mem_cons_self y ws)
              · exact hvis y hy

theorem filter_length_le_of_imp (l : List Nat) (p q : Nat → Bool)
    (h : ∀ x, p x = true → q x = true) :
    (l.filter p).length ≤ (l.filter q).length := by
  induction l with
  | nil => simp
  | cons a t ih =>
      by_cases hp : p a = true
      · simp [hp, h a hp]
        omega
      · have : p a = false := by simpa using hp
        by_cases hq : q a = true
        · simp [this, hq]
          omega
        · have hq' : q a = false := by simpa using hq
          simpa [this, hq'] using ih

theorem filter_not_mem_cons_lt (U : List Nat) (u : Nat) (vis : List Nat)
    (hu : u ∈ U) (hnv : u ∉ vis) :
    (U.filter (fun x => decide (x ∉ u :: vis))).length <
      (U.filter (fun x => decide (x ∉ vis))).length := by
  induction U with
  | nil => cases hu
  | cons a t ih =>
      by_cases ha : a = u
      · subst ha
        have h1 : (decide (a ∉ a :: vis)) = false := by simp
        have h2 : (decide (a ∉ vis)) = true := by simpa using hnv
        have hle : (t.filter (fun x => decide (x ∉ a :: vis))).length ≤
            (t.filter (fun x => decide (x ∉ vis))).length := by
          refine filter_length_le_of_imp t _ _ ?_
          intro x hx
          simp only [decide_eq_true_eq] at hx ⊢
          exact fun hmem => hx (List.mem_cons_of_mem a hmem)
        simp only [List.filter_cons, h1, h2, Bool.false_eq_true, if_false, if_true,
          List.length_cons]
        omega
      · have hu' : u ∈ t := by
          rcases List.mem_cons.mp hu with h | h
          · exact absurd h.symm ha
          · exact h
        have hsame : (decide (a ∉ u :: vis)) = (decide (a ∉ vis)) := by
          by_cases hav : a ∈ vis
          · simp [hav]
          · simp [hav, ha]
        simp only [List.filter_cons, hsame]
        by_cases hv : (decide (a ∉ vis)) = true
        · simp only [hv, List.length_cons]
          exact Nat.succ_lt_succ (ih hu')
        · have hv' : (decide (a ∉ vis)) = false := by simpa using hv
          simpa [hv'] using ih hu'

theorem dfsAux_complete (es : List Edge) (start : Nat) :
    ∀ (fuel : Nat) (ws vis : List Nat),
      (es.length + 1) * ((uniList es start).filter (fun x => decide (x ∉ vis))).length
          + ws.length ≤ fuel →
      ws ⊆ uniList es start →
      (∀ u ∈ vis, ∀ v ∈ allSuccs es u, v ∈ vis ∨ v ∈ ws) →
      (∀ u ∈ dfsAux es fuel ws vis, ∀ v ∈ allSuccs es u, v ∈ dfsAux es fuel ws vis) ∧
        ws ⊆ dfsAux es fuel ws vis := by
  intro fuel
  induction fuel with
  | zero =>
      intro ws vis hfuel _ hinv
      have hws : ws = [] := by
        cases ws with
        | nil => rfl
        | cons a t => simp at hfuel
      subst hws
      refine ⟨?_, by simp⟩
      intro u hu v hv
      rw [dfsAux] at hu ⊢
      rcases hinv u hu v hv with h | h
      · exact h
      · cases h
  | succ n ih =>
      intro ws vis hfuel hwsU hinv
      cases ws with
      | nil =>
          refine ⟨?_, by simp⟩
          intro u hu v hv
          rw [dfsAux] at hu ⊢
          rcases hinv u hu v hv with h | h
          · exact h
          · cases h
      | cons u ws =>
          by_cases h : u ∈ vis
          · rw [dfsAux, if_pos h]
            have hfuel' : (es.length + 1) *
                ((uniList es start).filter (fun x => decide (x ∉ vis))).length
                  + ws.length ≤ n := by
              simp only [List.length_cons] at hfuel
              omega
            have hinv' : ∀ x ∈ vis, ∀ v ∈ allSuccs es x, v ∈ vis ∨ v ∈ ws := by
              intro x hx v hv
              rcases hinv x hx v hv with hl | hr
              · exact Or.inl hl
              · rcases List.mem_cons.mp hr with he | he
                · subst he; exact Or.inl h
                · exact Or.inr he
            have hws' : ws ⊆ uniList es start :=
              fun x hx => hwsU (List.mem_cons_of_mem u hx)
            rcases ih ws vis hfuel' hws' hinv' with ⟨hclosed, hsub⟩
            refine ⟨hclosed, ?_⟩
            intro x hx
            rcases List.mem_cons.mp hx with he | he
            · subst he; exact dfsAux_mono es n ws vis h
            · exact hsub he
          · rw [dfsAux, if_neg h]
            have huU : u ∈ uniList es start := hwsU (List.mem_cons_self u ws)
            have hdec := filter_not_mem_cons_lt (uniList es start) u vis huU h
            have hfuel' : (es.length + 1) *
                ((uniList es start).filter (fun x => decide (x ∉ u :: vis))).length
                  + (allSuccs es u ++ ws).length ≤ n := by
              have hsl : (allSuccs es u).length ≤ es.length := length_allSuccs_le es u
              have hmul : (es.length + 1) *
                  (((uniList es start).filter (fun x => decide (x ∉ u :: vis))).length + 1) ≤
                  (es.length + 1) *
                  ((uniList es start).filter (fun x => decide (x ∉ vis))).length :=
                Nat.mul_le_mul_left _ hdec
              rw [Nat.mul_add, Nat.mul_one] at hmul
              simp only [List.length_append, List.length_cons] at hfuel ⊢
              omega
            have hws' : allSuccs es u ++ ws ⊆ uniList es start := by
              intro x hx
              rcases List.mem_append.mp hx with hx | hx
              · exact allSuccs_subset_uniList es start u hx
              · exact hwsU (List.mem_cons_of_mem u hx)
            have hinv' : ∀ x ∈ u :: vis, ∀ v ∈ allSuccs es x,
                v ∈ u :: vis ∨ v ∈ allSuccs es u ++ ws := by
              intro x hx v hv
              rcases List.mem_cons.mp hx with he | he
              · subst he
                exact Or.inr (List.mem_append_left _ hv)
              · rcases hinv x he v hv with hl | hr
                · exact Or.inl (List.mem_cons_of_mem u hl)
                · rcases List.mem_cons.mp hr with h2 | h2
                  · subst h2; exact Or.inl (List.mem_cons_self v vis)
                  · exact Or.inr (List.mem_append_right _ h2)
            rcases ih _ _ hfuel' hws' hinv' with ⟨hclosed, hsub⟩
            refine ⟨hclosed, ?_⟩
            intro x hx
            rcases List.mem_cons.mp hx with he | he
            · subst he
              exact dfsAux_mono es n _ _ (List.mem_cons_self x vis)
            · exact hsub (List.mem_append_right _ he)

theorem dfs_correct (es : List Edge) (start : Nat) :
    ∀ v, v ∈ dfs es start ↔ Reach es start v := by
  have hcomp := dfsAux_complete es start (dfsFuel es start) [start] []
  have hfilter : ((uniList es start).filter (fun x => decide (x ∉ ([] : List Nat))))
      = uniList es start := by
    apply List.filter_eq_self.mpr
    intro a _
    simp
  have hfuel : (es.length + 1) *
      ((uniList es start).filter (fun x => decide (x ∉ ([] : List Nat)))).length
        + [start].length ≤ dfsFuel es start := by
    rw [hfilter]
    simp [dfsFuel]
  have hstart : [start] ⊆ uniList es start := by
    intro x hx
    rcases List.mem_cons.mp hx with he | he
    · rw [he]; exact List.mem_cons_self start _
    · cases he
  have hinv : ∀ u ∈ ([] : List Nat), ∀ v ∈ allSuccs es u, v ∈ ([] : List Nat) ∨ v ∈ [start] := by
    intro u hu
    cases hu
  rcases hcomp hfuel hstart hinv with ⟨hclosed, hsub⟩
  intro v
  constructor
  · intro hv
    refine dfsAux_sound es start (dfsFuel es start) [start] [] ?_ ?_ v hv
    · intro w hw
      rcases List.mem_cons.mp hw with he | he
      · subst he; exact Relation.ReflTransGen.refl
      · cases he
    · intro x hx
      cases hx
  · intro hv
    unfold Reach at hv
    induction hv with
    | refl => exact hsub (List.mem_cons_self start [])
    | tail _ hstep ih =>
        exact hclosed _ ih _ ((stepRel_iff_allSuccs es _ _).mp hstep)

theorem stepRel_of_mem (es : List Edge) (u : Nat) (c : Char) (v : Nat)
    (h : (u, c, v) ∈ es) : stepRel es u v :=
  ⟨c, (mem_succs_iff es u c v).mpr h⟩

theorem Reach_append (es ex : List Edge) (u v : Nat) (h : Reach es u v) :
    Reach (es ++ ex) u v := by
  unfold Reach at h ⊢
  refine Relation.ReflTransGen.mono ?_ h
  intro a b hab
  rcases hab with ⟨c, hc⟩
  exact ⟨c, (mem_succs_iff _ _ _ _).mpr
    (List.mem_append_left ex ((mem_succs_iff _ _ _ _).mp hc))⟩

theorem thompsonStep_inv (stack stack' : List Fragment) (b b' : Builder) (t : Char)
    (h : thompsonStep stack b t = .ok (stack', b'))
    (hinv : ∀ f ∈ stack, Reach b.edges f.start f.accept) :
    ∀ f ∈ stack', Reach b'.edges f.start f.accept := by
  unfold thompsonStep at h
  by_cases h1 : t = '|'
  · rw [if_pos h1] at h
    cases stack with
    | nil => simp at h
    | cons bf s2 =>
        cases s2 with
        | nil => simp at h
        | cons af rest =>
            injection h with h2
            injection h2 with hst hbd
            subst hst; subst hbd
            intro f hf
            rcases List.mem_cons.mp hf with he | he
            · rw [he]
              have hstep1 : stepRel
                  (b.edges ++ [(b.nextId + 1, EPS, af.start), (b.nextId + 1, EPS, bf.start),
                    (af.accept, EPS, b.nextId + 2), (bf.accept, EPS, b.nextId + 2)])
                  (b.nextId + 1) af.start :=
                stepRel_of_mem _ _ EPS _ (List.mem_append_right _ (by simp))
              have hmid := Reach_append b.edges
                [(b.nextId + 1, EPS, af.start), (b.nextId + 1, EPS, bf.start),
                  (af.accept, EPS, b.nextId + 2), (bf.accept, EPS, b.nextId + 2)]
                af.start af.accept (hinv af (by simp))
              have hstep2 : stepRel
                  (b.edges ++ [(b.nextId + 1, EPS, af.start), (b.nextId + 1, EPS, bf.start),
                    (af.accept, EPS, b.nextId + 2), (bf.accept, EPS, b.nextId + 2)])
                  af.accept (b.nextId + 2) :=
                stepRel_of_mem _ _ EPS _ (List.mem_append_right _ (by simp))
              exact ((Relation.ReflTransGen.single hstep1).trans hmid).trans
                (Relation.ReflTransGen.single hstep2)
            · exact Reach_append _ _ _ _
                (hinv f (List.mem_cons_of_mem bf (List.mem_cons_of_mem af he)))
  rw [if_neg h1] at h
  by_cases h2 : t = '.'
  · rw [if_pos h2] at h
    cases stack with
    | nil => simp at h
    | cons bf s2 =>
        cases s2 with
        | nil => simp at h
        | cons af rest =>
            injection h with hh
            injection hh with hst hbd
            subst hst; subst hbd
            intro f hf
            rcases List.mem_cons.mp hf with he | he
            · rw [he]
              have hA := Reach_append b.edges [(af.accept, EPS, bf.start)]
                af.start af.accept (hinv af (by simp))
              have hB := Reach_append b.edges [(af.accept, EPS, bf.start)]
                bf.start bf.accept (hinv bf (by simp))
              have hstep : stepRel (b.edges ++ [(af.accept, EPS, bf.start)])
                  af.accept bf.start :=
                stepRel_of_mem _ _ EPS _ (List.mem_append_right _ (by simp))
              exact (hA.trans (Relation.ReflTransGen.single hstep)).trans hB
            · exact Reach_append _ _ _ _
                (hinv f (List.mem_cons_of_mem bf (List.mem_cons_of_mem af he)))
  rw [if_neg h2] at h
  by_cases h3 : t = '*'
  · rw [if_pos h3] at h
    cases stack with
    | nil => simp at h
    | cons af rest =>
        injection h with hh
        injection hh with hst hbd
        subst hst; subst hbd
        intro f hf
        rcases List.mem_cons.mp hf with he | he
        · rw [he]
          exact Relation.ReflTransGen.single
            (stepRel_of_mem _ _ EPS _ (List.mem_append_right _ (by simp)))
        · exact Reach_append _ _ _ _ (hinv f (List.mem_cons_of_mem af he))
  rw [if_neg h3] at h
  by_cases h4 : t = '+'
  · rw [if_pos h4] at h
    cases stack with
    | nil => simp at h
    | cons af rest =>
        injection h with hh
        injection hh with hst hbd
        subst hst; subst hbd
        intro f hf
        rcases List.mem_cons.mp hf with he | he
        · rw [he]
          have hstep1 : stepRel
              (b.edges ++ [(b.nextId + 1, EPS, af.start),
                (af.accept, EPS, af.start), (af.accept, EPS, b.nextId + 2)])
              (b.nextId + 1) af.start :=
            stepRel_of_mem _ _ EPS _ (List.mem_append_right _ (by simp))
          have hmid := Reach_append b.edges
            [(b.nextId + 1, EPS, af.start),
              (af.accept, EPS, af.start), (af.accept, EPS, b.nextId + 2)]
            af.start af.accept (hinv af (by simp))
          have hstep2 : stepRel
              (b.edges ++ [(b.nextId + 1, EPS, af.start),
                (af.accept, EPS, af.start), (af.accept, EPS, b.nextId + 2)])
              af.accept (b.nextId + 2) :=
            stepRel_of_mem _ _ EPS _ (List.mem_append_right _ (by simp))
          exact ((Relation.ReflTransGen.single hstep1).trans hmid).trans
            (Relation.ReflTransGen.single hstep2)
        · exact Reach_append _ _ _ _ (hinv f (List.mem_cons_of_mem af he))
  rw [if_neg h4] at h
  by_cases h5 : t = '?'
  · rw [if_pos h5] at h
    cases stack with
    | nil => simp at h
    | cons af rest =>
        injection h with hh
        injection hh with hst hbd
        subst hst; subst hbd
        intro f hf
        rcases List.mem_cons.mp hf with he | he
        · rw [he]
          exact Relation.ReflTransGen.single
            (stepRel_of_mem _ _ EPS _ (List.mem_append_right _ (by simp)))
        · exact Reach_append _ _ _ _ (hinv f (List.mem_cons_of_mem af he))
  rw [if_neg h5] at h
  injection h with hh
  injection hh with hst hbd
  subst hst; subst hbd
  intro f hf
  rcases List.mem_cons.mp hf with he | he
  · rw [he]
    exact Relation.ReflTransGen.single
      (stepRel_of_mem _ _ (if t = EPS then EPS else t) _
        (List.mem_append_right _ (by simp)))
  · exact Reach_append _ _ _ _ (hinv f he)

theorem runPost_inv (ts : List Char) :
    ∀ (stack stack' : List Fragment) (b b' : Builder),
      runPost ts stack b = .ok (stack', b') →
      (∀ f ∈ stack, Reach b.edges f.start f.accept) →
      ∀ f ∈ stack', Reach b'.edges f.start f.accept := by
  induction ts with
  | nil =>
      intro stack stack' b b' h hinv
      simp only [runPost] at h
      injection h with hh
      injection hh with hst hbd
      subst hst; subst hbd
      exact hinv
  | cons t ts ih =>
      intro stack stack' b b' h hinv
      simp only [runPost] at h
      cases ht : thompsonStep stack b t with
      | error e => rw [ht] at h; cases h
      | ok p =>
          rcases p with ⟨st1, b1⟩
          rw [ht] at h
          exact ih st1 stack' b1 b' h (thompsonStep_inv stack st1 b b1 t ht hinv)

/-- C2: for every successful compile, the automaton's state set is exactly
the set of states reachable from the start state following transitions of
any label, and the accept state belongs to it (is reachable from start). -/
theorem c2_reachable_states (r : List Char) (nfa : NFA)
    (h : compile_regex_to_nfa r = .ok nfa) :
    (∀ v, v ∈ nfa.states ↔ Reach nfa.edges nfa.start v) ∧
      nfa.accept ∈ nfa.states := by
  unfold compile_regex_to_nfa at h
  cases hp : to_postfix (add_concat (remove_spaces r)) with
  | error e => rw [hp] at h; cases h
  | ok post =>
      rw [hp] at h
      have hth : thompson_from_postfix post = .ok nfa := h
      unfold thompson_from_postfix at hth
      cases hr : runPost post [] initBuilder with
      | error e => rw [hr] at hth; cases hth
      | ok p =>
          rcases p with ⟨stack, b⟩
          rw [hr] at hth
          have hth2 : (match stack with
              | [frag] => Except.ok (⟨frag.start, frag.accept,
                  dfs b.edges frag.start, b.edges⟩ : NFA)
              | _ => Except.error Err.invalidConstruction) = Except.ok nfa := hth
          cases stack with
          | nil => cases hth2
          | cons frag rest =>
              cases rest with
              | nil =>
                  injection hth2 with hh
                  subst hh
                  constructor
                  · intro v
                    exact dfs_correct b.edges frag.start v
                  · have hacc : Reach b.edges frag.start frag.accept := by
                      refine runPost_inv post [] (frag :: []) initBuilder b hr ?_ frag
                        (List.mem_cons_self frag [])
                      intro f hf
                      cases hf
                    exact (dfs_correct b.edges frag.start frag.accept).mpr hacc
              | cons g r2 => cases hth2

/-- Witness for C2 at the automaton compiled from the regex `a`. -/
theorem c2_reachable_states_witness :
    (⟨1, 2, [2, 1], [(1, 'a', 2)]⟩ : NFA).accept ∈
      (⟨1, 2, [2, 1], [(1, 'a', 2)]⟩ : NFA).states :=
  (c2_reachable_states ['a'] ⟨1, 2, [2, 1], [(1, 'a', 2)]⟩ (by decide)).2

-- Star at the outermost position accepts the empty word (C4)

theorem ecFold_closure_mono (vs : List Nat) :
    ∀ stack closure, closure ⊆ (ecFold vs stack closure).2 := by
  induction vs with
  | nil => intro stack closure; simp [ecFold]
  | cons v vs ih =>
      intro stack closure
      by_cases h : v ∈ closure
      · simpa [ecFold, h] using ih stack closure
      · simp only [ecFold, if_neg h]
        intro x hx
        exact ih _ _ (List.mem_cons_of_mem v hx)

theorem ecFold_mem (vs : List Nat) :
    ∀ stack closure v, v ∈ vs → v ∈ (ecFold vs stack closure).2 := by
  induction vs with
  | nil => intro stack closure v hv; cases hv
  | cons w vs ih =>
      intro stack closure v hv
      rcases List.mem_cons.mp hv with he | he
      · subst he
        by_cases h : v ∈ closure
        · simpa [ecFold, h] using ecFold_closure_mono vs stack closure h
        · simp only [ecFold, if_neg h]
          exact ecFold_closure_mono vs _ _ (List.mem_cons_self v closure)
      · by_cases h : w ∈ closure
        · simpa [ecFold, h] using ih stack closure v he
        · simp only [ecFold, if_neg h]
          exact ih _ _ v he

theorem ecAux_closure_mono (es : List Edge) :
    ∀ fuel stack closure, closure ⊆ ecAux es fuel stack closure := by
  intro fuel
  induction fuel with
  | zero => intro stack closure; simp [ecAux]
  | succ n ih =>
      intro stack closure
      cases stack with
      | nil => simp [ecAux]
      | cons s st =>
          intro x hx
          rw [ecAux]
          exact ih _ _ (ecFold_closure_mono (succs es s EPS) st closure hx)

theorem mem_epsilon_closure_single (es : List Edge) (s v : Nat)
    (h : v ∈ succs es s EPS) : v ∈ epsilon_closure es [s] := by
  unfold epsilon_closure
  have hlen : ([s] : List Nat).length + es.length + 1 = (es.length + 1) + 1 := by
    simp [Nat.add_comm]
  rw [hlen, ecAux]
  exact ecAux_closure_mono es (es.length + 1) _ _
    (ecFold_mem (succs es s EPS) [] [s] v h)

theorem runPost_append (xs ys : List Char) :
    ∀ stack b, runPost (xs ++ ys) stack b =
      match runPost xs stack b with
      | .error e => .error e
      | .ok (s, b') => runPost ys s b' := by
  induction xs with
  | nil => intro stack b; rfl
  | cons t xs ih =>
      intro stack b
      cases ht : thompsonStep stack b t with
      | error e => simp [runPost, ht]
      | ok p =>
          rcases p with ⟨s1, b1⟩
          simp [runPost, ht, ih]

theorem star_at_end_accepts (P : List Char) (nfa : NFA)
    (h : thompson_from_postfix (P ++ ['*']) = .ok nfa) :
    nfa_accepts nfa [] = true := by
  unfold thompson_from_postfix at h
  rw [runPost_append P ['*']] at h
  cases hr : runPost P [] initBuilder with
  | error e =>
      rw [hr] at h
      have h2 : (Except.error e : Except Err NFA) = .ok nfa := h
      cases h2
  | ok p =>
      rcases p with ⟨st1, b1⟩
      rw [hr] at h
      cases st1 with
      | nil =>
          have h2 : (Except.error Err.popEmpty : Except Err NFA) = .ok nfa := h
          cases h2
      | cons af rest =>
          have h3 : (match (⟨b1.nextId + 1, b1.nextId + 2⟩ :: rest : List Fragment) with
              | [frag] => Except.ok (⟨frag.start, frag.accept,
                  dfs (b1.edges ++ [(b1.nextId + 1, EPS, af.start),
                    (b1.nextId + 1, EPS, b1.nextId + 2), (af.accept, EPS, af.start),
                    (af.accept, EPS, b1.nextId + 2)]) frag.start,
                  b1.edges ++ [(b1.nextId + 1, EPS, af.start),
                    (b1.nextId + 1, EPS, b1.nextId + 2), (af.accept, EPS, af.start),
                    (af.accept, EPS, b1.nextId + 2)]⟩ : NFA)
              | _ => Except.error Err.invalidConstruction) = Except.ok nfa := h
          cases rest with
          | cons g r2 => cases h3
          | nil =>
              injection h3 with hh
              subst hh
              simp only [nfa_accepts, acceptLoop]
              apply decide_eq_true
              refine mem_epsilon_closure_single _ _ _ ?_
              refine (mem_succs_iff _ _ _ _).mpr ?_
              exact List.mem_append_right _ (by simp)

theorem remove_spaces_wrap (A : List Char) :
    remove_spaces ('(' :: A ++ [')', '*']) = '(' :: remove_spaces A ++ [')', '*'] := by
  have h1 : (!('(' : Char).isWhitespace) = true := by decide
  have h2 : (!(')' : Char).isWhitespace) = true := by decide
  have h3 : (!('*' : Char).isWhitespace) = true := by decide
  simp [remove_spaces, List.filter_append, List.filter_cons, h1, h2, h3]

theorem bal_lparen (cs : List Char) (d : Nat) : bal ('(' :: cs) d = bal cs (d + 1) := by
  simp [bal]

theorem bal_rparen_zero (cs : List Char) : bal (')' :: cs) 0 = false := by
  simp [bal]

theorem bal_rparen_succ (cs : List Char) (e : Nat) : bal (')' :: cs) (e + 1) = bal cs e := by
  simp [bal]

theorem bal_other (c : Char) (cs : List Char) (d : Nat)
    (h1 : c ≠ '(') (h2 : c ≠ ')') : bal (c :: cs) d = bal cs d := by
  simp [bal, h1, h2]

theorem bal_remove_spaces (A : List Char) : ∀ d, bal (remove_spaces A) d = bal A d := by
  induction A with
  | nil => intro d; rfl
  | cons c A ih =>
      intro d
      by_cases hw : c.isWhitespace = true
      · have hc1 : c ≠ '(' := by
          intro he; rw [he] at hw; exact absurd hw (by decide)
        have hc2 : c ≠ ')' := by
          intro he; rw [he] at hw; exact absurd hw (by decide)
        have hdrop : remove_spaces (c :: A) = remove_spaces A := by
          simp [remove_spaces, List.filter_cons, hw]
        rw [hdrop, bal_other c A d hc1 hc2, ih d]
      · have hw' : (!c.isWhitespace) = true := by simpa using hw
        have hkeep : remove_spaces (c :: A) = c :: remove_spaces A := by
          simp [remove_spaces, List.filter_cons, hw']
        rw [hkeep]
        by_cases hc1 : c = '('
        · subst hc1
          rw [bal_lparen, bal_lparen, ih]
        by_cases hc2 : c = ')'
        · subst hc2
          cases d with
          | zero => rw [bal_rparen_zero, bal_rparen_zero]
          | succ e => rw [bal_rparen_succ, bal_rparen_succ, ih]
        rw [bal_other c _ d hc1 hc2, bal_other c A d hc1 hc2, ih]

theorem concatCond_lparen_left (y : Char) : concatCond '(' y = false := by
  have h1 : is_symbol '(' = false := by decide
  have h2 : ([')', '*', '+', '?'].contains '(') = false := by decide
  simp [concatCond, h1, h2]

theorem concatCond_rparen_right (x : Char) : concatCond x ')' = false := by
  have h1 : is_symbol ')' = false := by decide
  have h2 : (['(', EPS].contains ')') = false := by decide
  simp only [concatCond, h1, h2, Bool.or_false, Bool.and_false]

theorem concatCond_star_right (x : Char) : concatCond x '*' = false := by
  have h1 : is_symbol '*' = false := by decide
  have h2 : (['(', EPS].contains '*') = false := by decide
  simp only [concatCond, h1, h2, Bool.or_false, Bool.and_false]

theorem add_concat_lparen (l : List Char) :
    add_concat ('(' :: l) = '(' :: add_concat l := by
  cases l with
  | nil => rfl
  | cons y rest =>
      simp only [add_concat, concatCond_lparen_left, Bool.false_eq_true, if_false]

theorem add_concat_close_star (B : List Char) :
    add_concat (B ++ [')', '*']) = add_concat B ++ [')', '*'] := by
  induction B with
  | nil =>
      simp only [List.nil_append, add_concat, concatCond_rparen_right,
        concatCond_star_right, Bool.false_eq_true, if_false]
  | cons x B ih =>
      cases B with
      | nil =>
          simp only [List.cons_append, List.nil_append, add_concat,
            concatCond_rparen_right, concatCond_star_right, Bool.false_eq_true, if_false]
      | cons y B' =>
          simp only [List.cons_append] at ih ⊢
          simp only [add_concat]
          by_cases h : concatCond x y = true
          · rw [if_pos h, if_pos h, ih]
            rfl
          · rw [if_neg h, if_neg h, ih]
            rfl

theorem bal_add_concat (B : List Char) : ∀ d, bal (add_concat B) d = bal B d := by
  induction B with
  | nil => intro d; rfl
  | cons x B ih =>
      cases B with
      | nil => intro d; rfl
      | cons y B' =>
          intro d
          have hdot : ∀ cs dd, bal ('.' :: cs) dd = bal cs dd := fun cs dd =>
            bal_other '.' cs dd (by decide) (by decide)
          simp only [add_concat]
          by_cases h : concatCond x y = true
          · rw [if_pos h]
            by_cases hx1 : x = '('
            · subst hx1
              exact absurd h (by simp [concatCond_lparen_left])
            by_cases hx2 : x = ')'
            · subst hx2
              cases d with
              | zero => rw [bal_rparen_zero, bal_rparen_zero]
              | succ e => rw [bal_rparen_succ, bal_rparen_succ, hdot, ih]
            rw [bal_other x _ d hx1 hx2, bal_other x _ d hx1 hx2, hdot, ih]
          · rw [if_neg h]
            by_cases hx1 : x = '('
            · subst hx1
              rw [bal_lparen, bal_lparen, ih]
            by_cases hx2 : x = ')'
            · subst hx2
              cases d with
              | zero => rw [bal_rparen_zero, bal_rparen_zero]
              | succ e => rw [bal_rparen_succ, bal_rparen_succ, ih]
            rw [bal_other x _ d hx1 hx2, bal_other x _ d hx1 hx2, ih]

theorem popToParen_through (S : List Char) (h : '(' ∉ S) :
    ∀ T out, popToParen (S ++ '(' :: T) out = some (T, out ++ S) := by
  induction S with
  | nil => intro T out; simp [popToParen]
  | cons a S ih =>
      intro T out
      have ha : a ≠ '(' := by
        intro he
        exact h (by simp [he])
      have hS : '(' ∉ S := fun hm => h (List.mem_cons_of_mem a hm)
      rw [List.cons_append, popToParen, if_neg ha, ih hS T (out ++ [a])]
      simp

theorem first_lparen_split (S : List Char) (h : '(' ∈ S) :
    ∃ S₁ S₂, S = S₁ ++ '(' :: S₂ ∧ '(' ∉ S₁ := by
  induction S with
  | nil => cases h
  | cons a S ih =>
      by_cases ha : a = '('
      · exact ⟨[], S, by rw [ha]; rfl, by simp⟩
      · have hS : '(' ∈ S := by
          rcases List.mem_cons.mp h with he | he
          · exact absurd he.symm ha
          · exact he
        rcases ih hS with ⟨S₁, S₂, hs, hn⟩
        refine ⟨a :: S₁, S₂, by rw [hs]; rfl, ?_⟩
        intro hm
        rcases List.mem_cons.mp hm with he | he
        · exact ha he.symm
        · exact hn he

theorem popOps_split (ch : Char) (S : List Char) :
    ∀ T out, ∃ S₁ S₂, S = S₁ ++ S₂ ∧ '(' ∉ S₁ ∧
      popOps ch (S ++ '(' :: T) out = (S₂ ++ '(' :: T, out ++ S₁) := by
  induction S with
  | nil =>
      intro T out
      refine ⟨[], [], rfl, by simp, ?_⟩
      simp [popOps]
  | cons top S ih =>
      intro T out
      by_cases h1 : top = '('
      · refine ⟨[], top :: S, rfl, by simp, ?_⟩
        rw [List.cons_append, popOps, if_pos h1]
        simp
      · by_cases h2 : popCond top ch = true
        · rcases ih T (out ++ [top]) with ⟨S₁, S₂, hs, hn, he⟩
          refine ⟨top :: S₁, S₂, by rw [List.cons_append, ← hs], ?_, ?_⟩
          · intro hm
            rcases List.mem_cons.mp hm with hx | hx
            · exact h1 hx.symm
            · exact hn hx
          · rw [List.cons_append, popOps, if_neg h1, if_pos h2, he]
            simp
        · refine ⟨[], top :: S, rfl, by simp, ?_⟩
          rw [List.cons_append, popOps, if_neg h1, if_neg h2]
          simp

theorem toPostAux_eps (cs out stack : List Char) :
    toPostAux (EPS :: cs) out stack = toPostAux cs (out ++ [EPS]) stack := by
  simp [toPostAux]

theorem toPostAux_sym (c : Char) (cs out stack : List Char)
    (h1 : c ≠ EPS) (h2 : is_symbol c = true) :
    toPostAux (c :: cs) out stack = toPostAux cs (out ++ [c]) stack := by
  rw [toPostAux, if_neg h1, if_pos h2]

theorem toPostAux_lparen (cs out stack : List Char) :
    toPostAux ('(' :: cs) out stack = toPostAux cs out ('(' :: stack) := by
  rw [toPostAux, if_neg (by decide), if_neg (by decide), if_pos rfl]

theorem toPostAux_rparen_some (cs out stack stack' out' : List Char)
    (hp : popToParen stack out = some (stack', out')) :
    toPostAux (')' :: cs) out stack = toPostAux cs out' stack' := by
  rw [toPostAux, if_neg (by decide), if_neg (by decide), if_neg (by decide),
    if_pos rfl, hp]

theorem toPostAux_op (c : Char) (cs out stack : List Char)
    (h1 : c ≠ EPS) (h2 : is_symbol c = false) (h3 : c ≠ '(') (h4 : c ≠ ')')
    (h5 : (PRECEDENCE c).isSome = true) :
    toPostAux (c :: cs) out stack =
      toPostAux cs (popOps c stack out).2 (c :: (popOps c stack out).1) := by
  rw [toPostAux, if_neg h1, if_neg (by simp [h2]), if_neg h3, if_neg h4, if_pos h5]

theorem loop_bal (rest st : List Char) :
    ∀ (cs : List Char) (d : Nat) (S out : List Char),
      bal cs d = true → S.count '(' = d →
      ∃ out' S', S'.count '(' = 0 ∧
        toPostAux (cs ++ rest) out (S ++ '(' :: st) =
          toPostAux rest out' (S' ++ '(' :: st) := by
  intro cs
  induction cs with
  | nil =>
      intro d S out hb hc
      have hd : d = 0 := by simpa [bal] using hb
      subst hd
      exact ⟨out, S, hc, rfl⟩
  | cons c cs ih =>
      intro d S out hb hc
      by_cases h1 : c = EPS
      · subst h1
        rw [bal_other EPS cs d (by decide) (by decide)] at hb
        rcases ih d S (out ++ [EPS]) hb hc with ⟨out', S', hS, he⟩
        exact ⟨out', S', hS, by rw [List.cons_append, toPostAux_eps]; exact he⟩
      by_cases h2 : is_symbol c = true
      · have hc1 : c ≠ '(' := by
          intro he; rw [he] at h2; exact absurd h2 (by decide)
        have hc2 : c ≠ ')' := by
          intro he; rw [he] at h2; exact absurd h2 (by decide)
        rw [bal_other c cs d hc1 hc2] at hb
        rcases ih d S (out ++ [c]) hb hc with ⟨out', S', hS, he⟩
        exact ⟨out', S', hS,
          by rw [List.cons_append, toPostAux_sym c _ _ _ h1 h2]; exact he⟩
      by_cases h3 : c = '('
      · subst h3
        rw [bal_lparen] at hb
        have hc' : ('(' :: S).count '(' = d + 1 := by
          rw [List.count_cons_self, hc]
        rcases ih (d + 1) ('(' :: S) out hb hc' with ⟨out', S', hS, he⟩
        refine ⟨out', S', hS, ?_⟩
        rw [List.cons_append, toPostAux_lparen]
        exact he
      by_cases h4 : c = ')'
      · subst h4
        cases d with
        | zero =>
            rw [bal_rparen_zero] at hb
            cases hb
        | succ e =>
            rw [bal_rparen_succ] at hb
            have hmem : '(' ∈ S := by
              have : 0 < S.count '(' := by omega
              exact List.count_pos_iff.mp this
            rcases first_lparen_split S hmem with ⟨S₁, S₂, hsplit, hnot⟩
            have h₁0 : S₁.count '(' = 0 := List.count_eq_zero.mpr hnot
            have hc' : S₂.count '(' = e := by
              rw [hsplit, List.count_append, List.count_cons_self] at hc
              omega
            have hp : popToParen (S ++ '(' :: st) out =
                some (S₂ ++ '(' :: st, out ++ S₁) := by
              rw [hsplit, List.append_assoc, List.cons_append]
              exact popToParen_through S₁ hnot (S₂ ++ '(' :: st) out
            rcases ih e S₂ (out ++ S₁) hb hc' with ⟨out', S', hS, he⟩
            refine ⟨out', S', hS, ?_⟩
            rw [List.cons_append, toPostAux_rparen_some _ _ _ _ _ hp]
            exact he
      have h2' : is_symbol c = false := by simpa using h2
      have h5 : (PRECEDENCE c).isSome = true := by
        rcases operator_classified c h2' with h | h | h
        · exact absurd h h3
        · exact absurd h h4
        · exact h
      rw [bal_other c cs d h3 h4] at hb
      rcases popOps_split c S st out with ⟨S₁, S₂, hsplit, hnot, hpop⟩
      have hc' : (c :: S₂).count '(' = d := by
        have h₁0 : S₁.count '(' = 0 := List.count_eq_zero.mpr hnot
        have hS₂ : S₂.count '(' = d := by
          rw [hsplit, List.count_append] at hc
          omega
        rw [List.count_cons_of_ne (fun he => h3 he.symm), hS₂]
      rcases ih d (c :: S₂) (out ++ S₁) hb hc' with ⟨out', S', hS, he⟩
      refine ⟨out', S', hS, ?_⟩
      rw [List.cons_append, toPostAux_op c _ _ _ h1 h2' h3 h4 h5, hpop]
      exact he

theorem group_star_postfix (A : List Char) (hb : bal A 0 = true) :
    ∃ Q, to_postfix (add_concat (remove_spaces ('(' :: A ++ [')', '*']))) =
      .ok (Q ++ ['*']) := by
  rw [remove_spaces_wrap, List.cons_append, add_concat_lparen, add_concat_close_star]
  have hbC : bal (add_concat (remove_spaces A)) 0 = true := by
    rw [bal_add_concat, bal_remove_spaces]
    exact hb
  rw [ to_postfix]
  rw [toPostAux_lparen]
  have hstack : ('(' :: ([] : List Char)) = ([] : List Char) ++ '(' :: [] := rfl
  rcases loop_bal [')', '*'] [] (add_concat (remove_spaces A)) 0 [] [] hbC (by simp)
    with ⟨out', S', hS, he⟩
  rw [hstack, he]
  have hnot : '(' ∉ S' := List.count_eq_zero.mp hS
  rw [toPostAux_rparen_some _ _ _ _ _ (popToParen_through S' hnot [] out')]
  exact ⟨out' ++ S', rfl⟩

/-- C4 (amended): star applied to a whole balanced sub-expression `A` — the
regex `(A)*` — always yields an automaton accepting the empty word when the
compile succeeds. -/
theorem c4_group_star_accepts_empty (A : List Char) (nfa : NFA)
    (hb : bal A 0 = true)
    (h : compile_regex_to_nfa ('(' :: A ++ [')', '*']) = .ok nfa) :
    nfa_accepts nfa [] = true := by
  rcases group_star_postfix A hb with ⟨Q, hq⟩
  unfold compile_regex_to_nfa at h
  rw [hq] at h
  exact star_at_end_accepts Q nfa h

/-- Counterexample to C4 as stated: the sub-expression `A = ab` followed by
the star character compiles successfully (to the automaton of `a(b*)`,
since the star binds only to `b`), yet the empty word is rejected. -/
theorem c4_counterexample :
    (compile_regex_to_nfa (['a', 'b'] ++ ['*'])).map (fun nfa => nfa_accepts nfa []) =
      .ok false := by decide

/-- Witness for C4 (amended) at `A = a`, i.e. the regex `(a)*`. -/
theorem c4_group_star_accepts_empty_witness :
    nfa_accepts ⟨3, 4, [4, 2, 1, 3],
      [(1, 'a', 2), (3, EPS, 1), (3, EPS, 4), (2, EPS, 1), (2, EPS, 4)]⟩ [] = true :=
  c4_group_star_accepts_empty ['a']
    ⟨3, 4, [4, 2, 1, 3],
      [(1, 'a', 2), (3, EPS, 1), (3, EPS, 4), (2, EPS, 1), (2, EPS, 4)]⟩
    (by decide) (by decide)

end ThompsonNFA
